import Mathlib

/-!
Verification of the moving-average crossover strategy engine in
`streamlit_app.py` (function `compute_strategy` and the aggregate
computation in `app`).

The price series is modelled as a list of optional rationals: `none`
stands for a missing/NaN close.  Column arithmetic mirrors pandas
semantics on rationals:

* `rollingMean w xs` embeds `xs.rolling(window=w).mean()`: the value at
  index `i` is defined iff `i + 1 ≥ w` and all `w` closes of the trailing
  window are defined, and is then the arithmetic mean of that window.
* Comparisons against a NaN operand are false, as in numpy; `optLe` and
  `optGe` encode this.
* `pctChange` embeds `close.pct_change().fillna(0)`: pandas forward-fills
  the series (default `fill_method` pads missing observations) before
  dividing by the shifted series; the first entry and entries with no
  defined predecessor become NaN and are then filled with 0.
* `strategyReturn` embeds `position.shift(1).fillna(0) * pct_change`.
-/

/-- A raw price frame: a date index and a close column (with possible
missing values), the only inputs `compute_strategy` reads. -/
structure PriceFrame where
  index : List Int
  close : List (Option ℚ)
deriving Repr, DecidableEq

/-- The annotated frame returned by `compute_strategy`. -/
structure StrategyFrame where
  index : List Int
  close : List (Option ℚ)
  sma_short : List (Option ℚ)
  sma_long : List (Option ℚ)
  signal : List Int
  position : List Int
  pct_change : List ℚ
  strategy_return : List ℚ
deriving Repr, DecidableEq

/-- Embeds `xs.rolling(window=w).mean()`: value at `i` is the mean of the trailing
`w` closes, defined only when `i + 1 ≥ w` and no close of the window is
missing (pandas counts non-NaN observations against `min_periods = w`). -/
def rollingMean (w : Nat) (xs : List (Option ℚ)) : List (Option ℚ) :=
  (List.range xs.length).map fun i =>
    if w ≤ i + 1 then
      let window := (xs.take (i + 1)).drop (i + 1 - w)
      if window.all Option.isSome then
        some ((window.filterMap id).sum / (w : ℚ))
      else none
    else none

/-- Numpy-style `<=` on possibly-NaN values: false when an operand is NaN. -/
def optLe : Option ℚ → Option ℚ → Bool
  | some a, some b => a ≤ b
  | _, _ => false

/-- Numpy-style `>=` on possibly-NaN values: false when an operand is NaN. -/
def optGe : Option ℚ → Option ℚ → Bool
  | some a, some b => b ≤ a
  | _, _ => false

/-- The body of one iteration of the signal loop: if the current short and
long averages are both non-null, emit 1 on an upward cross and -1 on a
downward cross, comparing against the previous row (a NaN previous value
makes both comparisons false, leaving 0); otherwise leave 0. -/
def signalRule (curS curL prevS prevL : Option ℚ) : Int :=
  match curS, curL with
  | some cs, some cl =>
      if cl < cs ∧ optLe prevS prevL then 1
      else if cs < cl ∧ optGe prevS prevL then -1
      else 0
  | _, _ => 0

/-- The signal loop of `compute_strategy`: the column is initialised to 0
and the rule is applied at every `i ≥ 1`. -/
def mkSignal (smaS smaL : List (Option ℚ)) (n : Nat) : List Int :=
  (List.range n).map fun i =>
    if i = 0 then 0
    else signalRule (smaS.getD i none) (smaL.getD i none)
      (smaS.getD (i - 1) none) (smaL.getD (i - 1) none)

/-- The position scan of `compute_strategy`: carry a running position,
set to 1 on signal 1, to 0 on signal -1, unchanged otherwise. -/
def positionsAux : Int → List Int → List Int
  | _, [] => []
  | pos, sig :: rest =>
      let pos' : Int := if sig = 1 then 1 else if sig = -1 then 0 else pos
      pos' :: positionsAux pos' rest

/-- Column `position`: the scan started from a flat (0) position. -/
def mkPositions (signals : List Int) : List Int :=
  positionsAux 0 signals

/-- Forward fill (`pad`): a missing value takes the most recent defined
value before it, if any. -/
def ffillAux : Option ℚ → List (Option ℚ) → List (Option ℚ)
  | _, [] => []
  | last, x :: rest =>
      let cur := match x with
        | some v => some v
        | none => last
      cur :: ffillAux cur rest

/-- Embeds `close.ffill()` starting with no previous observation. -/
def ffill (xs : List (Option ℚ)) : List (Option ℚ) :=
  ffillAux none xs

/-- Embeds `close.pct_change()` before `fillna`: pandas pads missing closes, then
computes `filled / filled.shift(1) - 1`; an entry is NaN when the padded
value or its predecessor is undefined (in particular at index 0). -/
def pctChangeRaw (close : List (Option ℚ)) : List (Option ℚ) :=
  let filled := ffill close
  List.zipWith
    (fun prev cur =>
      match prev, cur with
      | some d, some x => some (x / d - 1)
      | _, _ => none)
    (none :: filled) filled

/-- Embeds `close.pct_change().fillna(0)`. -/
def pctChange (close : List (Option ℚ)) : List ℚ :=
  (pctChangeRaw close).map fun x => x.getD 0

/-- Embeds `position.shift(1).fillna(0) * pct_change`: entry `i` multiplies the
previous row's position (0 at the first row) by the current return. -/
def strategyReturn (position : List Int) (pct : List ℚ) : List ℚ :=
  List.zipWith (fun p r => p * r)
    ((0 : ℚ) :: position.map (fun (p : Int) => (p : ℚ))) pct

/-- Embeds `compute_strategy`: copies the frame and adds the derived columns. -/
def compute_strategy (df : PriceFrame) (short_window long_window : Nat) :
    StrategyFrame :=
  let smaS := rollingMean short_window df.close
  let smaL := rollingMean long_window df.close
  let signal := mkSignal smaS smaL df.close.length
  let position := mkPositions signal
  let pct := pctChange df.close
  { index := df.index
    close := df.close
    sma_short := smaS
    sma_long := smaL
    signal := signal
    position := position
    pct_change := pct
    strategy_return := strategyReturn position pct }

/-- The aggregate computed by `app` at line 137: compounded return
`(pct + 1).prod() - 1`. -/
def compoundedReturn (pct : List ℚ) : ℚ :=
  ((pct.map fun r => r + 1).prod) - 1

/-- The concrete close prices of the spec's crossover scenario. -/
def testCloses : List ℚ := [10, 10, 10, 10, 10, 12, 14, 16, 5, 5, 5, 5]

/-- The concrete test series of the spec's crossover scenario:
closes `[10,10,10,10,10,12,14,16,5,5,5,5]`. -/
def testFrame : PriceFrame :=
  { index := [0, 1, 2, 3, 4, 5, 6, 7, 8, 9, 10, 11]
    close := testCloses.map some }

example :
    (compute_strategy testFrame 2 3).signal
      = [0, 0, 0, 0, 0, 1, 0, 0, -1, 0, 0, 0] := by with_unfolding_all decide

example :
    (compute_strategy testFrame 2 3).position
      = [0, 0, 0, 0, 0, 1, 1, 1, 0, 0, 0, 0] := by with_unfolding_all decide

example :
    (compute_strategy testFrame 2 3).sma_short
      = [none, some 10, some 10, some 10, some 10, some 11, some 13,
         some 15, some (21/2), some 5, some 5, some 5] := by
  with_unfolding_all decide

example :
    pctChange [some 100, none, some 110] = [0, 0, 1/10] := by
  with_unfolding_all decide

/-! ### Entrywise characterizations of the pipeline stages -/

/-- Entry `i` of a map over `List.range n`. -/
theorem getD_range_map {α : Type} (f : Nat → α) (n i : Nat) (d : α) (h : i < n) :
    ((List.range n).map f).getD i d = f i := by
  have hlen : i < ((List.range n).map f).length := by simpa using h
  rw [List.getD_eq_getElem _ _ hlen, List.getElem_map, List.getElem_range]

theorem rollingMean_length (w : Nat) (xs : List (Option ℚ)) :
    (rollingMean w xs).length = xs.length := by
  simp [rollingMean]

theorem rollingMean_getD (w : Nat) (xs : List (Option ℚ)) (i : Nat)
    (h : i < xs.length) :
    (rollingMean w xs).getD i none =
      if w ≤ i + 1 then
        if ((xs.take (i + 1)).drop (i + 1 - w)).all Option.isSome then
          some ((((xs.take (i + 1)).drop (i + 1 - w)).filterMap id).sum / (w : ℚ))
        else none
      else none := by
  unfold rollingMean
  rw [getD_range_map _ _ _ _ h]

theorem mkSignal_length (smaS smaL : List (Option ℚ)) (n : Nat) :
    (mkSignal smaS smaL n).length = n := by
  simp [mkSignal]

theorem mkSignal_getD (smaS smaL : List (Option ℚ)) (n i : Nat) (h : i < n) :
    (mkSignal smaS smaL n).getD i 0 =
      if i = 0 then 0
      else signalRule (smaS.getD i none) (smaL.getD i none)
        (smaS.getD (i - 1) none) (smaL.getD (i - 1) none) := by
  unfold mkSignal
  rw [getD_range_map _ _ _ _ h]

theorem optLe_none_left (b : Option ℚ) : optLe none b = false := by
  cases b <;> rfl

theorem optLe_none_right (a : Option ℚ) : optLe a none = false := by
  cases a <;> rfl

theorem optGe_none_left (b : Option ℚ) : optGe none b = false := by
  cases b <;> rfl

theorem optGe_none_right (a : Option ℚ) : optGe a none = false := by
  cases a <;> rfl

theorem signalRule_none_left (b c d : Option ℚ) : signalRule none b c d = 0 := by
  cases b <;> rfl

theorem signalRule_none_right (a c d : Option ℚ) : signalRule a none c d = 0 := by
  cases a <;> rfl

theorem signalRule_some (cs cl : ℚ) (c d : Option ℚ) :
    signalRule (some cs) (some cl) c d =
      if cl < cs ∧ optLe c d then 1
      else if cs < cl ∧ optGe c d then -1
      else 0 := rfl

theorem signalRule_cases (a b c d : Option ℚ) :
    signalRule a b c d = 0 ∨ signalRule a b c d = 1 ∨ signalRule a b c d = -1 := by
  cases a with
  | none => rw [signalRule_none_left]; exact Or.inl rfl
  | some cs =>
      cases b with
      | none => rw [signalRule_none_right]; exact Or.inl rfl
      | some cl =>
          rw [signalRule_some]
          by_cases hb : cl < cs ∧ optLe c d
          · rw [if_pos hb]; exact Or.inr (Or.inl rfl)
          · rw [if_neg hb]
            by_cases hc : cs < cl ∧ optGe c d
            · rw [if_pos hc]; exact Or.inr (Or.inr rfl)
            · rw [if_neg hc]; exact Or.inl rfl

theorem signalRule_prev_none (a b c d : Option ℚ) (h : c = none ∨ d = none) :
    signalRule a b c d = 0 := by
  cases a with
  | none => exact signalRule_none_left _ _ _
  | some cs =>
      cases b with
      | none => exact signalRule_none_right _ _ _
      | some cl =>
          rw [signalRule_some]
          have hLe : optLe c d = false := by
            rcases h with h | h
            · rw [h]; exact optLe_none_left d
            · rw [h]; exact optLe_none_right c
          have hGe : optGe c d = false := by
            rcases h with h | h
            · rw [h]; exact optGe_none_left d
            · rw [h]; exact optGe_none_right c
          rw [if_neg, if_neg]
          · rintro ⟨h1, h2⟩
            rw [hGe] at h2
            exact absurd h2 (by decide)
          · rintro ⟨h1, h2⟩
            rw [hLe] at h2
            exact absurd h2 (by decide)

/-- The position transition applied at one row. -/
def posStep (sig pos : Int) : Int :=
  if sig = 1 then 1 else if sig = -1 then 0 else pos

theorem positionsAux_length (p : Int) (sigs : List Int) :
    (positionsAux p sigs).length = sigs.length := by
  induction sigs generalizing p with
  | nil => rfl
  | cons s rest ih => simp [positionsAux, ih]

theorem positionsAux_cons (p s : Int) (rest : List Int) :
    positionsAux p (s :: rest) = posStep s p :: positionsAux (posStep s p) rest := rfl

theorem positionsAux_getD_zero (p s : Int) (rest : List Int) :
    (positionsAux p (s :: rest)).getD 0 0 = posStep s p := rfl

theorem positionsAux_getD_succ (p : Int) (sigs : List Int) (i : Nat)
    (h : i + 1 < sigs.length) :
    (positionsAux p sigs).getD (i + 1) 0 =
      posStep (sigs.getD (i + 1) 0) ((positionsAux p sigs).getD i 0) := by
  induction sigs generalizing p i with
  | nil => simp at h
  | cons s rest ih =>
      cases i with
      | zero =>
          cases rest with
          | nil => simp at h
          | cons b r =>
              rw [positionsAux_cons]
              simp only [List.getD_cons_succ, List.getD_cons_zero]
              rw [positionsAux_getD_zero]
      | succ k =>
          have hk : k + 1 < rest.length := by simpa using h
          rw [positionsAux_cons]
          simp only [List.getD_cons_succ]
          exact ih (posStep s p) k hk

theorem ffillAux_length (a : Option ℚ) (xs : List (Option ℚ)) :
    (ffillAux a xs).length = xs.length := by
  induction xs generalizing a with
  | nil => rfl
  | cons x rest ih => simp [ffillAux, ih]

theorem ffill_length (xs : List (Option ℚ)) : (ffill xs).length = xs.length :=
  ffillAux_length none xs

theorem ffillAux_cons (a : Option ℚ) (x : Option ℚ) (rest : List (Option ℚ)) :
    ffillAux a (x :: rest) =
      (match x with | some v => some v | none => a) ::
        ffillAux (match x with | some v => some v | none => a) rest := by
  cases x <;> rfl

theorem ffillAux_getD_zero (a x : Option ℚ) (rest : List (Option ℚ)) :
    (ffillAux a (x :: rest)).getD 0 none =
      (match x with | some v => some v | none => a) := by
  cases x <;> rfl

theorem ffillAux_getD_succ (a : Option ℚ) (xs : List (Option ℚ)) (i : Nat)
    (h : i + 1 < xs.length) :
    (ffillAux a xs).getD (i + 1) none =
      (match xs.getD (i + 1) none with
       | some v => some v
       | none => (ffillAux a xs).getD i none) := by
  induction xs generalizing a i with
  | nil => simp at h
  | cons x rest ih =>
      cases i with
      | zero =>
          cases rest with
          | nil => simp at h
          | cons b r =>
              rw [ffillAux_cons]
              simp only [List.getD_cons_succ, List.getD_cons_zero]
              rw [ffillAux_getD_zero]
      | succ k =>
          have hk : k + 1 < rest.length := by simpa using h
          rw [ffillAux_cons]
          simp only [List.getD_cons_succ]
          exact ih _ k hk

/-- Every defined value produced by the forward fill is either the seed or a
value present in the input list. -/
theorem ffillAux_mem (a : Option ℚ) (xs : List (Option ℚ)) (y : ℚ)
    (h : some y ∈ ffillAux a xs) : a = some y ∨ some y ∈ xs := by
  induction xs generalizing a with
  | nil => simp [ffillAux] at h
  | cons x rest ih =>
      rw [ffillAux_cons] at h
      rcases List.mem_cons.mp h with h1 | h2
      · cases x with
        | some v =>
            right
            have hyv : y = v := by simpa using h1
            subst hyv
            exact List.mem_cons_self _ _
        | none => left; exact h1.symm
      · rcases ih _ h2 with h3 | h4
        · cases x with
          | some v =>
              right
              have hyv : y = v := by
                have := h3
                simp only at this
                exact (Option.some.inj this).symm
              subst hyv
              exact List.mem_cons_self _ _
          | none => left; exact h3
        · right; exact List.mem_cons_of_mem _ h4

/-- Forward fill is the identity on a series without missing values. -/
theorem ffillAux_map_some (a : Option ℚ) (cs : List ℚ) :
    ffillAux a (cs.map some) = cs.map some := by
  induction cs generalizing a with
  | nil => rfl
  | cons c rest ih => simp [ffillAux_cons, ih]

/-- The single-entry rule of `pct_change` before `fillna`. -/
def pctRule : Option ℚ → Option ℚ → Option ℚ
  | some d, some x => some (x / d - 1)
  | _, _ => none

theorem pctChangeRaw_eq (close : List (Option ℚ)) :
    pctChangeRaw close = List.zipWith pctRule (none :: ffill close) (ffill close) := rfl

theorem pctChangeRaw_length (close : List (Option ℚ)) :
    (pctChangeRaw close).length = close.length := by
  rw [pctChangeRaw_eq]
  simp [ffill_length]

theorem pctChangeRaw_getD_zero (close : List (Option ℚ)) :
    (pctChangeRaw close).getD 0 none = none := by
  rw [pctChangeRaw_eq]
  cases ffill close with
  | nil => rfl
  | cons y ys => cases y <;> rfl

theorem pctChangeRaw_getD_succ (close : List (Option ℚ)) (i : Nat)
    (h : i + 1 < close.length) :
    (pctChangeRaw close).getD (i + 1) none =
      pctRule ((ffill close).getD i none) ((ffill close).getD (i + 1) none) := by
  have hf : (ffill close).length = close.length := ffill_length close
  have hlen : i + 1 < (List.zipWith pctRule (none :: ffill close) (ffill close)).length := by
    simp [hf]
    omega
  rw [pctChangeRaw_eq, List.getD_eq_getElem _ _ hlen, List.getElem_zipWith]
  have h1 : i < (ffill close).length := by omega
  have h2 : i + 1 < (ffill close).length := by omega
  rw [List.getD_eq_getElem _ _ h1, List.getD_eq_getElem _ _ h2]
  congr 1

theorem pctChange_length (close : List (Option ℚ)) :
    (pctChange close).length = close.length := by
  simp [pctChange, pctChangeRaw_length]

theorem pctChange_getD (close : List (Option ℚ)) (i : Nat) (h : i < close.length) :
    (pctChange close).getD i 0 = ((pctChangeRaw close).getD i none).getD 0 := by
  have hlen : i < (pctChangeRaw close).length := by
    rw [pctChangeRaw_length]; exact h
  have hlen2 : i < (pctChange close).length := by
    rw [pctChange_length]; exact h
  unfold pctChange
  rw [List.getD_eq_getElem _ _ (by simpa [pctChange] using hlen2), List.getElem_map,
    List.getD_eq_getElem _ _ hlen]

theorem strategyReturn_length (pos : List Int) (pct : List ℚ)
    (h : pct.length ≤ pos.length + 1) :
    (strategyReturn pos pct).length = pct.length := by
  unfold strategyReturn
  rw [List.length_zipWith]
  simp only [List.length_cons, List.length_map]
  omega

theorem strategyReturn_getD_zero (pos : List Int) (pct : List ℚ)
    (h : 0 < pct.length) :
    (strategyReturn pos pct).getD 0 0 = 0 := by
  unfold strategyReturn
  cases hc : pct with
  | nil => rw [hc] at h; simp at h
  | cons r rs => simp

theorem strategyReturn_getD_succ (pos : List Int) (pct : List ℚ) (i : Nat)
    (h : i + 1 < pct.length) (h2 : i < pos.length) :
    (strategyReturn pos pct).getD (i + 1) 0 =
      (pos.getD i 0 : ℚ) * pct.getD (i + 1) 0 := by
  have hlen : i + 1 <
      (List.zipWith (fun p r => p * r)
        ((0 : ℚ) :: pos.map (fun (p : Int) => (p : ℚ))) pct).length := by
    rw [List.length_zipWith]
    simp only [List.length_cons, List.length_map]
    omega
  unfold strategyReturn
  rw [List.getD_eq_getElem _ _ hlen, List.getElem_zipWith]
  rw [List.getD_eq_getElem _ _ h2, List.getD_eq_getElem _ _ h]
  congr 1
  simp only [List.getElem_cons_succ, List.getElem_map]

/-! ### Unfolding the columns of the output frame -/

theorem compute_strategy_sma_short (df : PriceFrame) (s l : Nat) :
    (compute_strategy df s l).sma_short = rollingMean s df.close := rfl

theorem compute_strategy_sma_long (df : PriceFrame) (s l : Nat) :
    (compute_strategy df s l).sma_long = rollingMean l df.close := rfl

theorem compute_strategy_signal (df : PriceFrame) (s l : Nat) :
    (compute_strategy df s l).signal
      = mkSignal (rollingMean s df.close) (rollingMean l df.close)
          df.close.length := rfl

theorem compute_strategy_position (df : PriceFrame) (s l : Nat) :
    (compute_strategy df s l).position
      = mkPositions (mkSignal (rollingMean s df.close) (rollingMean l df.close)
          df.close.length) := rfl

theorem compute_strategy_pct_change (df : PriceFrame) (s l : Nat) :
    (compute_strategy df s l).pct_change = pctChange df.close := rfl

theorem compute_strategy_strategy_return (df : PriceFrame) (s l : Nat) :
    (compute_strategy df s l).strategy_return
      = strategyReturn
          (mkPositions (mkSignal (rollingMean s df.close)
            (rollingMean l df.close) df.close.length))
          (pctChange df.close) := rfl

theorem mkPositions_length (sigs : List Int) :
    (mkPositions sigs).length = sigs.length :=
  positionsAux_length 0 sigs

theorem mkPositions_getD (sigs : List Int) (i : Nat) (h : i < sigs.length) :
    (mkPositions sigs).getD i 0 =
      if sigs.getD i 0 = 1 then 1
      else if sigs.getD i 0 = -1 then 0
      else if i = 0 then 0 else (mkPositions sigs).getD (i - 1) 0 := by
  unfold mkPositions
  cases i with
  | zero =>
      cases sigs with
      | nil => simp at h
      | cons s rest =>
          rw [positionsAux_getD_zero]
          simp [posStep]
  | succ k =>
      rw [positionsAux_getD_succ 0 sigs k h]
      simp [posStep]

/-- Entry of a fully defined close list. -/
theorem getD_map_some (cs : List ℚ) (j : Nat) (h : j < cs.length) :
    (cs.map some).getD j none = some (cs.getD j 0) := by
  rw [List.getD_eq_getElem _ _ (by simpa using h), List.getElem_map,
    List.getD_eq_getElem _ _ h]

theorem all_isSome_map_some (lst : List ℚ) :
    (lst.map some).all Option.isSome = true := by
  simp only [List.all_eq_true]
  intro x hx
  rcases List.mem_map.mp hx with ⟨y, _, rfl⟩
  rfl

/-- On a fully defined series the rolling mean is the plain average of the
trailing window as soon as the window fits, and undefined before. -/
theorem rollingMean_map_some (w : Nat) (cs : List ℚ) (i : Nat)
    (hi : i < cs.length) :
    (rollingMean w (cs.map some)).getD i none =
      if w ≤ i + 1 then
        some (((cs.take (i + 1)).drop (i + 1 - w)).sum / (w : ℚ))
      else none := by
  rw [rollingMean_getD _ _ _ (by simpa using hi)]
  have heq : ((cs.map some).take (i + 1)).drop (i + 1 - w)
      = ((cs.take (i + 1)).drop (i + 1 - w)).map some := by
    rw [← List.map_take, ← List.map_drop]
  by_cases hc : w ≤ i + 1
  · simp only [hc, if_true, heq]
    rw [all_isSome_map_some]
    simp only [if_true]
    congr 1
    rw [List.filterMap_map]
    simp [List.filterMap_some]
  · simp [hc]

/-- Forward fill is the identity on a fully defined close list. -/
theorem ffill_map_some (cs : List ℚ) : ffill (cs.map some) = cs.map some :=
  ffillAux_map_some none cs

/-! ### The claims -/

/-- C8: the engine does not mutate its input series — rendered in the pure
embedding as the output frame carrying the input's date index and close
column verbatim — and returns a new annotated frame every one of whose
columns has the input's length. -/
theorem claim_C8 (df : PriceFrame) (s l : Nat) :
    (compute_strategy df s l).index = df.index ∧
    (compute_strategy df s l).close = df.close ∧
    (compute_strategy df s l).sma_short.length = df.close.length ∧
    (compute_strategy df s l).sma_long.length = df.close.length ∧
    (compute_strategy df s l).signal.length = df.close.length ∧
    (compute_strategy df s l).position.length = df.close.length ∧
    (compute_strategy df s l).pct_change.length = df.close.length ∧
    (compute_strategy df s l).strategy_return.length = df.close.length := by
  refine ⟨rfl, rfl, rollingMean_length _ _, rollingMean_length _ _, ?_, ?_, ?_, ?_⟩
  · rw [compute_strategy_signal, mkSignal_length]
  · rw [compute_strategy_position, mkPositions_length, mkSignal_length]
  · rw [compute_strategy_pct_change, pctChange_length]
  · rw [compute_strategy_strategy_return, strategyReturn_length, pctChange_length]
    rw [pctChange_length, mkPositions_length, mkSignal_length]
    omega

/-- C4: with no missing closes, `sma_long` is undefined for exactly the
first `long_window - 1` dates and from index `long_window - 1` onward equals
the arithmetic mean of the trailing `long_window` closes; the same holds for
`sma_short` with `short_window`; no partial-window averages occur. -/
theorem claim_C4 (df : PriceFrame) (s l : Nat) (cs : List ℚ)
    (hcl : df.close = cs.map some) (i : Nat) (hi : i < cs.length) :
    ((i + 1 < l → (compute_strategy df s l).sma_long.getD i none = none) ∧
     (l ≤ i + 1 → (compute_strategy df s l).sma_long.getD i none
        = some (((cs.take (i + 1)).drop (i + 1 - l)).sum / (l : ℚ)))) ∧
    ((i + 1 < s → (compute_strategy df s l).sma_short.getD i none = none) ∧
     (s ≤ i + 1 → (compute_strategy df s l).sma_short.getD i none
        = some (((cs.take (i + 1)).drop (i + 1 - s)).sum / (s : ℚ)))) := by
  rw [compute_strategy_sma_long, compute_strategy_sma_short, hcl]
  rw [rollingMean_map_some l cs i hi, rollingMean_map_some s cs i hi]
  refine ⟨⟨fun h => ?_, fun h => ?_⟩, ⟨fun h => ?_, fun h => ?_⟩⟩
  · rw [if_neg (by omega)]
  · rw [if_pos h]
  · rw [if_neg (by omega)]
  · rw [if_pos h]

/-- Witness for C4 at the crossover frame with windows 2 and 3: `sma_long`
is undefined at index 1 and is the mean of the first three closes at
index 2. -/
theorem claim_C4_witness :
    (compute_strategy testFrame 2 3).sma_long.getD 1 none = none ∧
    (compute_strategy testFrame 2 3).sma_long.getD 2 none
      = some (((testCloses.take 3).drop 0).sum / (3 : ℚ)) := by
  have h1 := claim_C4 testFrame 2 3 testCloses rfl 1 (by decide)
  have h2 := claim_C4 testFrame 2 3 testCloses rfl 2 (by decide)
  exact ⟨h1.1.1 (by omega), h2.1.2 (by omega)⟩

/-- C5: with all closes defined, `pct_change[0] = 0` and
`pct_change[i] = close[i]/close[i-1] - 1` for every `i ≥ 1`. -/
theorem claim_C5 (df : PriceFrame) (s l : Nat) (cs : List ℚ)
    (hcl : df.close = cs.map some) (i : Nat) (hi : i < cs.length) :
    (compute_strategy df s l).pct_change.getD 0 0 = 0 ∧
    (1 ≤ i → (compute_strategy df s l).pct_change.getD i 0
        = cs.getD i 0 / cs.getD (i - 1) 0 - 1) := by
  rw [compute_strategy_pct_change, hcl]
  have hlen : (cs.map some).length = cs.length := by simp
  constructor
  · rw [pctChange_getD _ 0 (by omega), pctChangeRaw_getD_zero]
    rfl
  · intro h1
    obtain ⟨k, rfl⟩ : ∃ k, i = k + 1 := ⟨i - 1, by omega⟩
    rw [pctChange_getD _ _ (by omega), pctChangeRaw_getD_succ _ _ (by omega)]
    rw [ffill_map_some]
    rw [getD_map_some _ _ (by omega), getD_map_some _ _ (by omega)]
    simp only [Nat.add_sub_cancel]
    rfl

/-- Witness for C5 at the crossover frame: the first return is 0 and the
return at index 5 is `12/10 - 1`. -/
theorem claim_C5_witness :
    (compute_strategy testFrame 2 3).pct_change.getD 0 0 = 0 ∧
    (compute_strategy testFrame 2 3).pct_change.getD 5 0
      = testCloses.getD 5 0 / testCloses.getD 4 0 - 1 := by
  have h := claim_C5 testFrame 2 3 testCloses rfl 5 (by decide)
  exact ⟨h.1, h.2 (by omega)⟩

/-- C2: the position column is the fold that starts flat, goes long on BUY,
flat on SELL, and is unchanged on NONE; the first date's signal is always
NONE, the first position is flat, and the position is unchanged at every
NONE date. -/
theorem claim_C2 (df : PriceFrame) (s l : Nat) (i : Nat)
    (hi : i < df.close.length) :
    (compute_strategy df s l).signal.getD 0 0 = 0 ∧
    (compute_strategy df s l).position.getD 0 0 = 0 ∧
    (compute_strategy df s l).position.getD i 0 =
      (if (compute_strategy df s l).signal.getD i 0 = 1 then 1
       else if (compute_strategy df s l).signal.getD i 0 = -1 then 0
       else if i = 0 then 0
       else (compute_strategy df s l).position.getD (i - 1) 0) ∧
    (1 ≤ i → (compute_strategy df s l).signal.getD i 0 = 0 →
      (compute_strategy df s l).position.getD i 0
        = (compute_strategy df s l).position.getD (i - 1) 0) := by
  rw [compute_strategy_signal, compute_strategy_position]
  have h0 : 0 < df.close.length := by omega
  have hlen : (mkSignal (rollingMean s df.close) (rollingMean l df.close)
      df.close.length).length = df.close.length := mkSignal_length _ _ _
  have hsig0 : (mkSignal (rollingMean s df.close) (rollingMean l df.close)
      df.close.length).getD 0 0 = 0 := by
    rw [mkSignal_getD _ _ _ 0 h0]
    rfl
  have hposi := mkPositions_getD
    (mkSignal (rollingMean s df.close) (rollingMean l df.close) df.close.length)
    i (by rw [hlen]; exact hi)
  have hpos0 := mkPositions_getD
    (mkSignal (rollingMean s df.close) (rollingMean l df.close) df.close.length)
    0 (by rw [hlen]; exact h0)
  refine ⟨hsig0, ?_, hposi, ?_⟩
  · rw [hpos0, hsig0]
    simp
  · intro h1 hz
    rw [hposi, hz]
    rw [if_neg (by decide), if_neg (by decide), if_neg (by omega)]

/-- Witness for C2 at the crossover frame: the SELL at index 8 flattens the
long position held at index 7. -/
theorem claim_C2_witness :
    (compute_strategy testFrame 2 3).signal.getD 0 0 = 0 ∧
    (compute_strategy testFrame 2 3).position.getD 0 0 = 0 ∧
    (compute_strategy testFrame 2 3).position.getD 8 0 =
      (if (compute_strategy testFrame 2 3).signal.getD 8 0 = 1 then 1
       else if (compute_strategy testFrame 2 3).signal.getD 8 0 = -1 then 0
       else if (8 : Nat) = 0 then 0
       else (compute_strategy testFrame 2 3).position.getD 7 0) := by
  have h := claim_C2 testFrame 2 3 8 (by decide)
  exact ⟨h.1, h.2.1, h.2.2.1⟩

theorem mkSignal_getD_cases (smaS smaL : List (Option ℚ)) (n i : Nat)
    (h : i < n) :
    (mkSignal smaS smaL n).getD i 0 = 0 ∨
    (mkSignal smaS smaL n).getD i 0 = 1 ∨
    (mkSignal smaS smaL n).getD i 0 = -1 := by
  rw [mkSignal_getD _ _ _ _ h]
  by_cases h0 : i = 0
  · rw [if_pos h0]; exact Or.inl rfl
  · rw [if_neg h0]
    exact signalRule_cases _ _ _ _

/-- C1: from the second date onward, at a date where both averages are
defined at the current and previous date, the signal is BUY exactly on a
strict upward cross with previous short ≤ previous long, SELL exactly on
the symmetric downward cross, and NONE otherwise; the first date and any
date with an undefined average (current or previous) get NONE. -/
theorem claim_C1 (df : PriceFrame) (s l : Nat) (i : Nat)
    (hi : i < df.close.length) :
    (i = 0 → (compute_strategy df s l).signal.getD i 0 = 0) ∧
    ((compute_strategy df s l).signal.getD i 0 = 0 ∨
     (compute_strategy df s l).signal.getD i 0 = 1 ∨
     (compute_strategy df s l).signal.getD i 0 = -1) ∧
    (1 ≤ i →
      ((compute_strategy df s l).sma_short.getD i none = none ∨
       (compute_strategy df s l).sma_long.getD i none = none ∨
       (compute_strategy df s l).sma_short.getD (i - 1) none = none ∨
       (compute_strategy df s l).sma_long.getD (i - 1) none = none) →
      (compute_strategy df s l).signal.getD i 0 = 0) ∧
    (∀ cs cl ps pl : ℚ, 1 ≤ i →
      (compute_strategy df s l).sma_short.getD i none = some cs →
      (compute_strategy df s l).sma_long.getD i none = some cl →
      (compute_strategy df s l).sma_short.getD (i - 1) none = some ps →
      (compute_strategy df s l).sma_long.getD (i - 1) none = some pl →
      (((compute_strategy df s l).signal.getD i 0 = 1 ↔ (cl < cs ∧ ps ≤ pl)) ∧
       ((compute_strategy df s l).signal.getD i 0 = -1 ↔ (cs < cl ∧ pl ≤ ps)))) := by
  rw [compute_strategy_signal, compute_strategy_sma_short, compute_strategy_sma_long]
  have hsig := mkSignal_getD (rollingMean s df.close) (rollingMean l df.close)
    df.close.length i hi
  refine ⟨?_, mkSignal_getD_cases _ _ _ _ hi, ?_, ?_⟩
  · intro h0; rw [hsig, if_pos h0]
  · intro h1 hnone
    rw [hsig, if_neg (by omega)]
    rcases hnone with h | h | h | h
    · rw [h, signalRule_none_left]
    · rw [h, signalRule_none_right]
    · rw [h]
      exact signalRule_prev_none _ _ _ _ (Or.inl rfl)
    · rw [h]
      exact signalRule_prev_none _ _ _ _ (Or.inr rfl)
  · intro cs cl ps pl h1 hcs hcl hps hpl
    rw [hsig, if_neg (by omega), hcs, hcl, hps, hpl, signalRule_some]
    simp only [optLe, optGe, decide_eq_true_eq]
    by_cases hb : cl < cs ∧ ps ≤ pl
    · rw [if_pos hb]
      refine ⟨iff_of_true rfl hb, iff_of_false (by decide) ?_⟩
      intro hc
      exact absurd hc.1 (lt_asymm hb.1)
    · rw [if_neg hb]
      by_cases hc : cs < cl ∧ pl ≤ ps
      · rw [if_pos hc]
        refine ⟨iff_of_false (by decide) ?_, iff_of_true rfl hc⟩
        intro hb2
        exact absurd hb2.1 (lt_asymm hc.1)
      · rw [if_neg hc]
        exact ⟨iff_of_false (by decide) hb, iff_of_false (by decide) hc⟩

/-- Witness for C1 at the crossover frame: at index 5 the short average 11
crosses above the long average 32/3 after being equal at index 4, so the
signal is BUY. -/
theorem claim_C1_witness :
    (compute_strategy testFrame 2 3).signal.getD 5 0 = 1 := by
  have h := (claim_C1 testFrame 2 3 5 (by decide)).2.2.2 11 (32/3) 10 10
    (by omega)
    (by with_unfolding_all decide) (by with_unfolding_all decide)
    (by with_unfolding_all decide) (by with_unfolding_all decide)
  exact h.1.mpr (by norm_num)

theorem positionsAux_replicate_zero (p : Int) (n : Nat) :
    positionsAux p (List.replicate n 0) = List.replicate n p := by
  induction n generalizing p with
  | zero => rfl
  | succ m ih =>
      rw [List.replicate_succ, positionsAux_cons]
      have hstep : posStep 0 p = p := by
        simp [posStep]
      rw [hstep, ih, List.replicate_succ]

theorem getD_replicate {α : Type} (a d : α) (n i : Nat) (h : i < n) :
    (List.replicate n a).getD i d = a := by
  rw [List.getD_eq_getElem _ _ (by simpa using h), List.getElem_replicate]

/-- C7: on any well-formed series strictly shorter than `long_window` the
engine completes and returns a full annotated frame in which every
`sma_long` value is undefined, every signal is NONE, every position is
flat and every strategy return is 0. -/
theorem claim_C7 (df : PriceFrame) (s l : Nat) (h : df.close.length < l) :
    (compute_strategy df s l).sma_long
      = List.replicate df.close.length none ∧
    (compute_strategy df s l).signal = List.replicate df.close.length 0 ∧
    (compute_strategy df s l).position = List.replicate df.close.length 0 ∧
    (compute_strategy df s l).strategy_return
      = List.replicate df.close.length 0 ∧
    (compute_strategy df s l).sma_short.length = df.close.length ∧
    (compute_strategy df s l).pct_change.length = df.close.length := by
  have hlong : rollingMean l df.close = List.replicate df.close.length none := by
    apply List.ext_getElem
    · rw [rollingMean_length, List.length_replicate]
    · intro n h1 h2
      have hn : n < df.close.length := by
        rw [rollingMean_length] at h1; exact h1
      rw [← List.getD_eq_getElem _ none h1, rollingMean_getD _ _ _ hn,
        if_neg (by omega), List.getElem_replicate]
  have hsig : mkSignal (rollingMean s df.close) (rollingMean l df.close)
      df.close.length = List.replicate df.close.length 0 := by
    apply List.ext_getElem
    · rw [mkSignal_length, List.length_replicate]
    · intro n h1 h2
      have hn : n < df.close.length := by
        rw [mkSignal_length] at h1; exact h1
      rw [← List.getD_eq_getElem _ 0 h1, mkSignal_getD _ _ _ _ hn,
        List.getElem_replicate]
      by_cases h0 : n = 0
      · rw [if_pos h0]
      · rw [if_neg h0, hlong, getD_replicate _ _ _ _ hn, signalRule_none_right]
  have hpos : mkPositions (mkSignal (rollingMean s df.close)
      (rollingMean l df.close) df.close.length)
      = List.replicate df.close.length 0 := by
    rw [hsig]
    exact positionsAux_replicate_zero 0 df.close.length
  refine ⟨hlong, hsig, hpos, ?_, rollingMean_length _ _, pctChange_length _⟩
  rw [compute_strategy_strategy_return, hpos]
  have hh : (pctChange df.close).length
      ≤ (List.replicate df.close.length (0 : Int)).length + 1 := by
    rw [pctChange_length, List.length_replicate]
    omega
  apply List.ext_getElem
  · rw [strategyReturn_length _ _ hh, List.length_replicate, pctChange_length]
  · intro n h1 h2
    have hn : n < df.close.length := by
      rw [strategyReturn_length _ _ hh, pctChange_length] at h1
      exact h1
    rw [← List.getD_eq_getElem _ 0 h1, List.getElem_replicate]
    cases n with
    | zero =>
        rw [strategyReturn_getD_zero _ _ (by rw [pctChange_length]; omega)]
    | succ k =>
        rw [strategyReturn_getD_succ _ _ k (by rw [pctChange_length]; omega)
          (by rw [List.length_replicate]; omega)]
        rw [getD_replicate _ _ _ _ (by omega : k < df.close.length)]
        rw [Int.cast_zero, zero_mul]

/-- A well-formed frame of two dates, shorter than the long window 3. -/
def shortFrame : PriceFrame :=
  { index := [0, 1], close := [some 100, some 101] }

/-- Witness for C7: a 2-row frame with `long_window = 3` yields all-undefined
`sma_long`, all-NONE signals, flat positions and zero strategy returns. -/
theorem claim_C7_witness :
    (compute_strategy shortFrame 2 3).sma_long = [none, none] ∧
    (compute_strategy shortFrame 2 3).signal = [0, 0] ∧
    (compute_strategy shortFrame 2 3).position = [0, 0] ∧
    (compute_strategy shortFrame 2 3).strategy_return = [0, 0] := by
  have h := claim_C7 shortFrame 2 3 (by decide)
  exact ⟨h.1, h.2.1, h.2.2.1, h.2.2.2.1⟩

theorem rollingMean_getD_none (w : Nat) (xs : List (Option ℚ)) (i j : Nat)
    (hi : i < xs.length) (hj : j ≤ i) (hw : i < w + j)
    (hnone : xs.getD j none = none) :
    (rollingMean w xs).getD i none = none := by
  rw [rollingMean_getD _ _ _ hi]
  by_cases hc : w ≤ i + 1
  · rw [if_pos hc]
    have hjlen : j < xs.length := by omega
    have hlen : j - (i + 1 - w) < ((xs.take (i + 1)).drop (i + 1 - w)).length := by
      rw [List.length_drop, List.length_take]
      omega
    have hval : ((xs.take (i + 1)).drop (i + 1 - w)).getD (j - (i + 1 - w)) none
        = none := by
      rw [List.getD_eq_getElem _ _ hlen, List.getElem_drop, List.getElem_take]
      have hjj : i + 1 - w + (j - (i + 1 - w)) = j := by omega
      simp only [hjj]
      rw [← List.getD_eq_getElem _ none hjlen]
      exact hnone
    have hmem : (none : Option ℚ) ∈ (xs.take (i + 1)).drop (i + 1 - w) := by
      have h3 := List.getD_eq_getElem ((xs.take (i + 1)).drop (i + 1 - w)) none hlen
      rw [hval] at h3
      rw [h3]
      exact List.getElem_mem hlen
    have hfalse : ((xs.take (i + 1)).drop (i + 1 - w)).all Option.isSome
        = false := by
      apply List.all_eq_false.mpr
      exact ⟨none, hmem, by simp⟩
    rw [hfalse]
    rfl
  · rw [if_neg hc]

theorem mkSignal_getD_of_none (smaS smaL : List (Option ℚ)) (n k : Nat)
    (hk : k < n)
    (h : smaS.getD k none = none ∨ smaL.getD k none = none) :
    (mkSignal smaS smaL n).getD k 0 = 0 := by
  rw [mkSignal_getD _ _ _ _ hk]
  by_cases h0 : k = 0
  · rw [if_pos h0]
  · rw [if_neg h0]
    rcases h with h | h
    · rw [h, signalRule_none_left]
    · rw [h, signalRule_none_right]

/-- C9: a moving average whose trailing window covers a missing close is
undefined at that date; the signal is NONE at every date where either
average is undefined; and the computation always completes with full-length
output columns. -/
theorem claim_C9 (df : PriceFrame) (s l : Nat) (i j : Nat)
    (hi : i < df.close.length) (hj : j ≤ i)
    (hnone : df.close.getD j none = none) :
    (i < s + j → (compute_strategy df s l).sma_short.getD i none = none) ∧
    (i < l + j → (compute_strategy df s l).sma_long.getD i none = none) ∧
    (∀ k, k < df.close.length →
      ((compute_strategy df s l).sma_short.getD k none = none ∨
       (compute_strategy df s l).sma_long.getD k none = none) →
      (compute_strategy df s l).signal.getD k 0 = 0) ∧
    (compute_strategy df s l).signal.length = df.close.length ∧
    (compute_strategy df s l).strategy_return.length = df.close.length := by
  rw [compute_strategy_sma_short, compute_strategy_sma_long,
    compute_strategy_signal, compute_strategy_strategy_return]
  refine ⟨fun hw => rollingMean_getD_none s _ i j hi hj hw hnone,
          fun hw => rollingMean_getD_none l _ i j hi hj hw hnone,
          fun k hk hn => mkSignal_getD_of_none _ _ _ k hk hn,
          mkSignal_length _ _ _, ?_⟩
  rw [strategyReturn_length, pctChange_length]
  rw [pctChange_length, mkPositions_length, mkSignal_length]
  omega

/-- A frame with a missing close at index 1. -/
def gapFrame : PriceFrame :=
  { index := [0, 1, 2, 3], close := [some 100, none, some 102, some 103] }

/-- Witness for C9: with a NaN close at index 1, the 2-period short average
at index 2 is undefined and the signal there is NONE. -/
theorem claim_C9_witness :
    (compute_strategy gapFrame 2 3).sma_short.getD 2 none = none ∧
    (compute_strategy gapFrame 2 3).signal.getD 2 0 = 0 := by
  have h := claim_C9 gapFrame 2 3 2 1 (by decide) (by omega)
    (by with_unfolding_all decide)
  exact ⟨h.1 (by omega), h.2.2.1 2 (by decide) (Or.inl (h.1 (by omega)))⟩

/-- A frame whose close at index 1 is missing while indices 0 and 2 are
defined. -/
def c10Frame : PriceFrame :=
  { index := [0, 1, 2], close := [some 100, none, some 110] }

/-- C10 counterexample: at index 2 of `[100, NaN, 110]` the previous close
is missing, yet `pct_change[2]` is `110/100 - 1 = 1/10`, not 0 — pandas
forward-fills the last defined close before differencing, so the 0-fill
applies only where the padded ratio itself is undefined. -/
theorem claim_C10_counterexample :
    (compute_strategy c10Frame 2 3).pct_change.getD 2 0 = 1 / 10 ∧
    ¬ (compute_strategy c10Frame 2 3).pct_change.getD 2 0 = 0 := by
  constructor <;> with_unfolding_all decide

theorem getD_mem_of_some {α : Type} (l : List α) (k : Nat) (d x : α)
    (hk : k < l.length) (h : l.getD k d = x) : x ∈ l := by
  rw [List.getD_eq_getElem _ _ hk] at h
  exact h ▸ List.getElem_mem hk

/-- C10 amended: for a date `i > 0` whose own close is missing (all defined
closes positive), `pct_change[i]` is 0 and hence `strategy_return[i]` is 0;
at a date whose own close is defined, `pct_change[i]` equals the close
divided by the forward-filled previous value minus 1 — which after a gap is
the ratio to the most recent defined close, not necessarily 0. -/
theorem claim_C10_amended (df : PriceFrame) (s l : Nat) (i : Nat)
    (hi : i < df.close.length) (h1 : 1 ≤ i)
    (hpos : ∀ x ∈ df.close, 0 < x.getD 1) :
    (df.close.getD i none = none →
      (compute_strategy df s l).pct_change.getD i 0 = 0 ∧
      (compute_strategy df s l).strategy_return.getD i 0 = 0) ∧
    (∀ x d : ℚ, df.close.getD i none = some x →
      (ffill df.close).getD (i - 1) none = some d →
      (compute_strategy df s l).pct_change.getD i 0 = x / d - 1) := by
  obtain ⟨k, rfl⟩ : ∃ k, i = k + 1 := ⟨i - 1, by omega⟩
  rw [compute_strategy_pct_change, compute_strategy_strategy_return]
  constructor
  · intro hmiss
    have hstep : (ffill df.close).getD (k + 1) none
        = (ffill df.close).getD k none := by
      have hrec := ffillAux_getD_succ none df.close k hi
      rw [hmiss] at hrec
      exact hrec
    have hpct : (pctChange df.close).getD (k + 1) 0 = 0 := by
      rw [pctChange_getD _ _ hi, pctChangeRaw_getD_succ _ _ hi, hstep]
      cases hfk : (ffill df.close).getD k none with
      | none => rfl
      | some d =>
          have hdpos : (0 : ℚ) < d := by
            have hkf : k < (ffill df.close).length := by
              rw [ffill_length]; omega
            have hmem : some d ∈ ffill df.close :=
              getD_mem_of_some _ k none (some d) hkf hfk
            rcases ffillAux_mem none df.close d hmem with habs | hmem2
            · exact absurd habs (by simp)
            · simpa using hpos _ hmem2
          show (pctRule (some d) (some d)).getD 0 = 0
          simp [pctRule, div_self (ne_of_gt hdpos)]
    refine ⟨hpct, ?_⟩
    rw [strategyReturn_getD_succ _ _ k
      (by rw [pctChange_length]; omega)
      (by rw [mkPositions_length, mkSignal_length]; omega)]
    rw [hpct, mul_zero]
  · intro x d hx hd
    rw [pctChange_getD _ _ hi, pctChangeRaw_getD_succ _ _ hi]
    have hfk1 : (ffill df.close).getD (k + 1) none = some x := by
      have hrec := ffillAux_getD_succ none df.close k hi
      rw [hx] at hrec
      exact hrec
    simp only [Nat.add_sub_cancel] at hd
    rw [hfk1, hd]
    rfl

/-- Witness for the amended C10 at `[100, NaN, 110]`: the missing close at
index 1 gives `pct_change[1] = 0` and `strategy_return[1] = 0`, while index
2 earns the padded ratio `110/100 - 1`. -/
theorem claim_C10_amended_witness :
    (compute_strategy c10Frame 2 3).pct_change.getD 1 0 = 0 ∧
    (compute_strategy c10Frame 2 3).strategy_return.getD 1 0 = 0 ∧
    (compute_strategy c10Frame 2 3).pct_change.getD 2 0 = 110 / 100 - 1 := by
  have h1 := claim_C10_amended c10Frame 2 3 1 (by decide) (by omega)
    (by with_unfolding_all decide)
  have h2 := claim_C10_amended c10Frame 2 3 2 (by decide) (by omega)
    (by with_unfolding_all decide)
  have ha := h1.1 (by with_unfolding_all decide)
  have hb := h2.2 110 100 (by with_unfolding_all decide)
    (by with_unfolding_all decide)
  exact ⟨ha.1, ha.2, hb⟩

/-- The telescoping product of the one-period growth factors along a fully
defined series: the factors `rest[k]/rest[k-1]` collapse to `last/first`. -/
theorem telescope_prod (a : ℚ) (rest : List ℚ) (ha : a ≠ 0)
    (hrest : ∀ x ∈ rest, x ≠ 0) :
    ((List.zipWith pctRule ((a :: rest).map some) (rest.map some)).map
        (fun x => x.getD 0 + 1)).prod
      = (a :: rest).getLast (List.cons_ne_nil a rest) / a := by
  induction rest generalizing a with
  | nil => simp [div_self ha]
  | cons b r ih =>
      have hb : b ≠ 0 := hrest b (List.mem_cons_self b r)
      have hr : ∀ x ∈ r, x ≠ 0 := fun x hx => hrest x (List.mem_cons_of_mem _ hx)
      rw [List.getLast_cons (List.cons_ne_nil b r)]
      simp only [List.map_cons]
      rw [List.zipWith_cons_cons, List.map_cons, List.prod_cons]
      have hfac : (pctRule (some a) (some b)).getD 0 + 1 = b / a := by
        simp [pctRule]
      rw [hfac]
      have hih := ih b hb hr
      simp only [List.map_cons] at hih
      rw [hih]
      field_simp
      ring

/-- C6: the compounded buy-and-hold return that `app` computes from
`pct_change` telescopes to `close[last]/close[first] - 1` on every nonempty
fully defined series of nonzero closes. -/
theorem claim_C6 (df : PriceFrame) (s l : Nat) (cs : List ℚ) (hne : cs ≠ [])
    (hcl : df.close = cs.map some) (hnz : ∀ x ∈ cs, x ≠ 0) :
    compoundedReturn ((compute_strategy df s l).pct_change)
      = cs.getLast hne / cs.head hne - 1 := by
  rw [compute_strategy_pct_change, hcl]
  cases cs with
  | nil => exact absurd rfl hne
  | cons a rest =>
      have ha : a ≠ 0 := hnz a (List.mem_cons_self a rest)
      have hrest : ∀ x ∈ rest, x ≠ 0 := fun x hx =>
        hnz x (List.mem_cons_of_mem _ hx)
      unfold compoundedReturn pctChange
      rw [pctChangeRaw_eq, ffill_map_some, List.map_map]
      have hsplit : List.zipWith pctRule (none :: (a :: rest).map some)
          ((a :: rest).map some)
          = pctRule none (some a) ::
            List.zipWith pctRule ((a :: rest).map some) (rest.map some) := by
        simp only [List.map_cons]
        rw [List.zipWith_cons_cons]
      rw [hsplit, List.map_cons, List.prod_cons]
      have hcomp : ((fun r : ℚ => r + 1) ∘ fun x : Option ℚ => x.getD 0)
          = fun x : Option ℚ => x.getD 0 + 1 := rfl
      rw [hcomp]
      have hone : (fun x : Option ℚ => x.getD 0 + 1) (pctRule none (some a))
          = 1 := by
        simp [pctRule]
      rw [hone, one_mul, telescope_prod a rest ha hrest]
      rfl

/-- The spec's concrete five-point rising series. -/
def fiveCloses : List ℚ := [100, 101, 102, 103, 104]

/-- The frame holding the five-point rising series. -/
def fiveFrame : PriceFrame :=
  { index := [0, 1, 2, 3, 4], close := fiveCloses.map some }

/-- Witness for C6: on `[100,101,102,103,104]` the compounded buy-and-hold
return is `104/100 - 1 = 1/25 = 4%`. -/
theorem claim_C6_witness :
    compoundedReturn ((compute_strategy fiveFrame 2 3).pct_change)
      = 1 / 25 := by
  have h := claim_C6 fiveFrame 2 3 fiveCloses (by decide) rfl
    (by with_unfolding_all decide)
  rw [h]
  with_unfolding_all decide

theorem getD_take {α : Type} (l : List α) (k i : Nat) (d : α) (hik : i < k)
    (hil : i < l.length) :
    (l.take k).getD i d = l.getD i d := by
  have h1 : i < (l.take k).length := by
    rw [List.length_take]
    omega
  rw [List.getD_eq_getElem _ _ h1, List.getD_eq_getElem _ _ hil,
    List.getElem_take]

theorem take_agree_mono {α : Type} (xs1 xs2 : List α) (i k : Nat)
    (hk : k ≤ i + 1) (hagree : xs1.take (i + 1) = xs2.take (i + 1)) :
    xs1.take k = xs2.take k := by
  have hc := congrArg (List.take k) hagree
  rwa [List.take_take, List.take_take, Nat.min_eq_left hk] at hc

theorem rollingMean_getD_agree (w : Nat) (xs1 xs2 : List (Option ℚ))
    (i j : Nat) (h1 : i < xs1.length) (h2 : i < xs2.length) (hj : j ≤ i)
    (hagree : xs1.take (i + 1) = xs2.take (i + 1)) :
    (rollingMean w xs1).getD j none = (rollingMean w xs2).getD j none := by
  have hj1 : j < xs1.length := by omega
  have hj2 : j < xs2.length := by omega
  rw [rollingMean_getD _ _ _ hj1, rollingMean_getD _ _ _ hj2]
  rw [take_agree_mono xs1 xs2 i (j + 1) (by omega) hagree]

theorem mkSignal_getD_agree (s l : Nat) (xs1 xs2 : List (Option ℚ))
    (i k : Nat) (h1 : i < xs1.length) (h2 : i < xs2.length) (hk : k ≤ i)
    (hagree : xs1.take (i + 1) = xs2.take (i + 1)) :
    (mkSignal (rollingMean s xs1) (rollingMean l xs1) xs1.length).getD k 0
      = (mkSignal (rollingMean s xs2) (rollingMean l xs2) xs2.length).getD k 0 := by
  rw [mkSignal_getD _ _ _ _ (by omega), mkSignal_getD _ _ _ _ (by omega)]
  by_cases h0 : k = 0
  · rw [if_pos h0, if_pos h0]
  · rw [if_neg h0, if_neg h0]
    rw [rollingMean_getD_agree s xs1 xs2 i k h1 h2 (by omega) hagree,
      rollingMean_getD_agree l xs1 xs2 i k h1 h2 (by omega) hagree,
      rollingMean_getD_agree s xs1 xs2 i (k - 1) h1 h2 (by omega) hagree,
      rollingMean_getD_agree l xs1 xs2 i (k - 1) h1 h2 (by omega) hagree]

theorem mkSignal_take_agree (s l : Nat) (xs1 xs2 : List (Option ℚ))
    (i m : Nat) (h1 : i < xs1.length) (h2 : i < xs2.length) (hm : m ≤ i + 1)
    (hagree : xs1.take (i + 1) = xs2.take (i + 1)) :
    (mkSignal (rollingMean s xs1) (rollingMean l xs1) xs1.length).take m
      = (mkSignal (rollingMean s xs2) (rollingMean l xs2) xs2.length).take m := by
  apply List.ext_getElem
  · rw [List.length_take, List.length_take, mkSignal_length, mkSignal_length]
    omega
  · intro n hn1 hn2
    have hn : n ≤ i := by
      rw [List.length_take, mkSignal_length] at hn1
      omega
    rw [List.getElem_take, List.getElem_take,
      ← List.getD_eq_getElem _ 0 (by rw [mkSignal_length]; omega),
      ← List.getD_eq_getElem _ 0 (by rw [mkSignal_length]; omega)]
    exact mkSignal_getD_agree s l xs1 xs2 i n h1 h2 hn hagree

theorem positionsAux_take (p : Int) (sigs : List Int) (k : Nat) :
    positionsAux p (sigs.take k) = (positionsAux p sigs).take k := by
  induction sigs generalizing p k with
  | nil => simp [positionsAux]
  | cons s rest ih =>
      cases k with
      | zero => simp [positionsAux]
      | succ m =>
          rw [List.take_succ_cons, positionsAux_cons, positionsAux_cons,
            List.take_succ_cons, ih]

theorem ffillAux_take (a : Option ℚ) (xs : List (Option ℚ)) (k : Nat) :
    ffillAux a (xs.take k) = (ffillAux a xs).take k := by
  induction xs generalizing a k with
  | nil => simp [ffillAux]
  | cons x rest ih =>
      cases k with
      | zero => simp [ffillAux]
      | succ m =>
          rw [List.take_succ_cons, ffillAux_cons, ffillAux_cons,
            List.take_succ_cons, ih]

theorem mkPositions_getD_of_take (sig1 sig2 : List Int) (i : Nat)
    (h1 : i < sig1.length) (h2 : i < sig2.length)
    (hagree : sig1.take (i + 1) = sig2.take (i + 1)) :
    (mkPositions sig1).getD i 0 = (mkPositions sig2).getD i 0 := by
  have e1 : (mkPositions (sig1.take (i + 1))).getD i 0
      = (mkPositions sig1).getD i 0 := by
    unfold mkPositions
    rw [positionsAux_take]
    exact getD_take _ _ _ _ (by omega) (by rw [positionsAux_length]; omega)
  have e2 : (mkPositions (sig2.take (i + 1))).getD i 0
      = (mkPositions sig2).getD i 0 := by
    unfold mkPositions
    rw [positionsAux_take]
    exact getD_take _ _ _ _ (by omega) (by rw [positionsAux_length]; omega)
  rw [← e1, hagree, e2]

theorem ffill_getD_agree (xs1 xs2 : List (Option ℚ)) (i j : Nat)
    (h1 : i < xs1.length) (h2 : i < xs2.length) (hj : j ≤ i)
    (hagree : xs1.take (i + 1) = xs2.take (i + 1)) :
    (ffill xs1).getD j none = (ffill xs2).getD j none := by
  have e1 : (ffill (xs1.take (i + 1))).getD j none = (ffill xs1).getD j none := by
    unfold ffill
    rw [ffillAux_take]
    exact getD_take _ _ _ _ (by omega) (by rw [ffillAux_length]; omega)
  have e2 : (ffill (xs2.take (i + 1))).getD j none = (ffill xs2).getD j none := by
    unfold ffill
    rw [ffillAux_take]
    exact getD_take _ _ _ _ (by omega) (by rw [ffillAux_length]; omega)
  rw [← e1, hagree, e2]

theorem pctChange_getD_agree (xs1 xs2 : List (Option ℚ)) (i : Nat)
    (h1 : i < xs1.length) (h2 : i < xs2.length)
    (hagree : xs1.take (i + 1) = xs2.take (i + 1)) :
    (pctChange xs1).getD i 0 = (pctChange xs2).getD i 0 := by
  cases i with
  | zero =>
      rw [pctChange_getD _ _ h1, pctChange_getD _ _ h2,
        pctChangeRaw_getD_zero, pctChangeRaw_getD_zero]
  | succ k =>
      rw [pctChange_getD _ _ h1, pctChange_getD _ _ h2,
        pctChangeRaw_getD_succ _ _ h1, pctChangeRaw_getD_succ _ _ h2,
        ffill_getD_agree xs1 xs2 (k + 1) k h1 h2 (by omega) hagree,
        ffill_getD_agree xs1 xs2 (k + 1) (k + 1) h1 h2 (by omega) hagree]

/-- C3: `strategy_return[0] = 0`; for `i ≥ 1` the strategy return is the
position held at `i-1` times `pct_change[i]`; and `strategy_return[i]`
depends only on the closes up to `i`: two inputs agreeing on their first
`i+1` closes produce the same value at `i`, so later closes cannot alter
it. -/
theorem claim_C3 (df1 df2 : PriceFrame) (s l : Nat) (i : Nat)
    (h1 : i < df1.close.length) (h2 : i < df2.close.length)
    (hagree : df1.close.take (i + 1) = df2.close.take (i + 1)) :
    (compute_strategy df1 s l).strategy_return.getD 0 0 = 0 ∧
    (1 ≤ i → (compute_strategy df1 s l).strategy_return.getD i 0
        = ((compute_strategy df1 s l).position.getD (i - 1) 0 : ℚ)
          * (compute_strategy df1 s l).pct_change.getD i 0) ∧
    (compute_strategy df1 s l).strategy_return.getD i 0
      = (compute_strategy df2 s l).strategy_return.getD i 0 := by
  rw [compute_strategy_strategy_return, compute_strategy_strategy_return,
    compute_strategy_position, compute_strategy_pct_change]
  refine ⟨?_, ?_, ?_⟩
  · exact strategyReturn_getD_zero _ _ (by rw [pctChange_length]; omega)
  · intro hge
    obtain ⟨k, rfl⟩ : ∃ k, i = k + 1 := ⟨i - 1, by omega⟩
    rw [strategyReturn_getD_succ _ _ k (by rw [pctChange_length]; omega)
      (by rw [mkPositions_length, mkSignal_length]; omega)]
    simp only [Nat.add_sub_cancel]
  · cases i with
    | zero =>
        rw [strategyReturn_getD_zero _ _ (by rw [pctChange_length]; omega),
          strategyReturn_getD_zero _ _ (by rw [pctChange_length]; omega)]
    | succ k =>
        rw [strategyReturn_getD_succ _ _ k (by rw [pctChange_length]; omega)
            (by rw [mkPositions_length, mkSignal_length]; omega),
          strategyReturn_getD_succ _ _ k (by rw [pctChange_length]; omega)
            (by rw [mkPositions_length, mkSignal_length]; omega)]
        have hposagree : (mkPositions (mkSignal (rollingMean s df1.close)
            (rollingMean l df1.close) df1.close.length)).getD k 0
            = (mkPositions (mkSignal (rollingMean s df2.close)
              (rollingMean l df2.close) df2.close.length)).getD k 0 := by
          apply mkPositions_getD_of_take
          · rw [mkSignal_length]; omega
          · rw [mkSignal_length]; omega
          · exact mkSignal_take_agree s l df1.close df2.close (k + 1) (k + 1)
              h1 h2 (by omega) hagree
        rw [hposagree,
          pctChange_getD_agree df1.close df2.close (k + 1) h1 h2 hagree]

/-- A frame agreeing with `testFrame` on the first nine closes but wildly
different afterwards. -/
def divergedFrame : PriceFrame :=
  { index := [0, 1, 2, 3, 4, 5, 6, 7, 8, 9, 10, 11]
    close := ([10, 10, 10, 10, 10, 12, 14, 16, 5, 100, 200, 300]
      : List ℚ).map some }

/-- Witness for C3 at index 8 of the crossover frame: the first strategy
return is 0, the strategy return at 8 is the lagged position times the
return, and replacing every close after index 8 leaves it unchanged. -/
theorem claim_C3_witness :
    (compute_strategy testFrame 2 3).strategy_return.getD 0 0 = 0 ∧
    (compute_strategy testFrame 2 3).strategy_return.getD 8 0
      = ((compute_strategy testFrame 2 3).position.getD 7 0 : ℚ)
        * (compute_strategy testFrame 2 3).pct_change.getD 8 0 ∧
    (compute_strategy testFrame 2 3).strategy_return.getD 8 0
      = (compute_strategy divergedFrame 2 3).strategy_return.getD 8 0 := by
  have h := claim_C3 testFrame divergedFrame 2 3 8 (by decide) (by decide)
    (by with_unfolding_all decide)
  exact ⟨h.1, h.2.1 (by omega), h.2.2⟩
